import Mathlib

/-!
# Verification of `src/utils/localizedTypes.ts`

A shallow embedding of the module `localizedTypes.ts` of the
`falling-fruit-web` repository, together with theorems about the claims of
its specification.

Modelling conventions:
* JavaScript plain objects used as integer-keyed dictionaries (`IdDict<T>`)
  are modelled as association lists `Dict Id α` with unique observable keys:
  `dlookup` returns the first binding, `dinsert` overwrites the binding in
  place (keeping its position) or appends a fresh one, exactly the observable
  behaviour of property read and property assignment.
* JS numbers that the module only ever adds are modelled as `Int`
  (counts, taxonomic ranks); `x || 0` on a number equals `x` unless `x` is
  `0` (or absent), which is `jsOr0` below; `x ?? 0` is `Option.getD 0`.
* String comparison `<` on JS strings is code-unit lexicographic; it is
  modelled by Lean's lexicographic `String` order.
-/

abbrev Id' : Type := Int

/-- An `IdDict<T>` / string-keyed JS object: association list, first binding
wins on lookup. -/
abbrev Dict (κ : Type) (α : Type) : Type := List (κ × α)

/-- Property read `d[k]`: `none` models `undefined`. -/
def dlookup {κ α : Type} [DecidableEq κ] : Dict κ α → κ → Option α
  | [], _ => none
  | (k', v) :: rest, k => if k' = k then some v else dlookup rest k

/-- Property assignment `d[k] = v`: overwrite the existing binding in place,
else append a new one. -/
def dinsert {κ α : Type} [DecidableEq κ] : Dict κ α → κ → α → Dict κ α
  | [], k, v => [(k, v)]
  | (k', v') :: rest, k, v =>
    if k' = k then (k, v) :: rest else (k', v') :: dinsert rest k v

/-- JS `x || 0` on a number read from a dictionary: `undefined` and `0` give
`0`, any other number gives itself. -/
def jsOr0 : Option Int → Int
  | none => 0
  | some v => if v = 0 then 0 else v

theorem jsOr0_eq_getD (o : Option Int) : jsOr0 o = o.getD 0 := by
  cases o with
  | none => rfl
  | some v =>
    simp only [jsOr0, Option.getD_some]
    split <;> omega

theorem dlookup_dinsert {κ α : Type} [DecidableEq κ] (d : Dict κ α) (k k' : κ)
    (v : α) :
    dlookup (dinsert d k v) k' = if k = k' then some v else dlookup d k' := by
  induction d with
  | nil => simp [dinsert, dlookup]
  | cons p rest ih =>
    obtain ⟨k₀, v₀⟩ := p
    by_cases h0 : k₀ = k
    · subst h0
      by_cases h1 : k₀ = k' <;> simp [dinsert, dlookup, h1]
    · by_cases h1 : k₀ = k'
      · subst h1
        have : ¬ k = k₀ := fun h => h0 h.symm
        simp [dinsert, dlookup, h0, this]
      · simp [dinsert, dlookup, h0, h1, ih]

theorem dlookup_dinsert_self {κ α : Type} [DecidableEq κ] (d : Dict κ α)
    (k : κ) (v : α) : dlookup (dinsert d k v) k = some v := by
  simp [dlookup_dinsert]

theorem dlookup_dinsert_ne {κ α : Type} [DecidableEq κ] (d : Dict κ α)
    (k k' : κ) (v : α) (h : k ≠ k') :
    dlookup (dinsert d k v) k' = dlookup d k' := by
  simp [dlookup_dinsert, h]

theorem dlookup_mem {κ α : Type} [DecidableEq κ] {d : Dict κ α} {k : κ}
    {v : α} (h : dlookup d k = some v) : (k, v) ∈ d := by
  induction d with
  | nil => simp [dlookup] at h
  | cons p rest ih =>
    obtain ⟨k₀, v₀⟩ := p
    by_cases h0 : k₀ = k
    · subst h0
      simp [dlookup] at h
      simp [h]
    · simp [dlookup, h0] at h
      exact List.mem_cons_of_mem _ (ih h)

/-- `localizedTypes.ts` line 14: the normalized, language-specific record. -/
structure LocalizedType : Type where
  id : Id'
  parentId : Id'
  scientificName : String
  commonName : String
  taxonomicRank : Int
  urls : Dict String String
  deriving DecidableEq, Repr

/-- `PENDING_ID` (line 7). -/
def PENDING_ID : Id' := -1

/-- The raw schema record (`components['schemas']['Type']`): optional fields
are `Option`, `pending` truthiness is a `Bool`, `common_names` maps a
language to its ordered name list. -/
structure SchemaType : Type where
  id : Id'
  parent_id : Option Id'
  pending : Bool
  scientific_names : Option (List String)
  common_names : Option (Dict String (List String))
  taxonomic_rank : Option Int
  urls : Option (Dict String String)
  deriving DecidableEq, Repr

/-- JS `x || ''` on an optional string: on a string `s` it is `s` itself
(the empty string being its own default), on `undefined` it is `''`. -/
def strOrEmpty (o : Option String) : String := o.getD ""

/-- `localize` (lines 31-48). -/
def localize (type : SchemaType) (language : String) : LocalizedType :=
  let scientificName := strOrEmpty ((type.scientific_names.getD []).head?)
  let commonName0 :=
    strOrEmpty (((dlookup (type.common_names.getD []) language).getD []).head?)
  let commonName :=
    if scientificName = "" ∧ commonName0 = "" then
      strOrEmpty (((dlookup (type.common_names.getD []) "en").getD []).head?)
    else commonName0
  { id := type.id
    parentId := if type.pending then PENDING_ID else jsOr0 type.parent_id
    scientificName := scientificName
    commonName := commonName
    taxonomicRank := jsOr0 type.taxonomic_rank
    urls := type.urls.getD [] }

/-- The `forEach` of `createTypesAccess` / `filter`, restricted to the
`idIndex` dictionary: `idIndex[type.id] = index`, indices counted from `i`. -/
def buildIdIndexAux (d : Dict Id' Nat) (i : Nat) :
    List LocalizedType → Dict Id' Nat
  | [] => d
  | t :: ts => buildIdIndexAux (dinsert d t.id i) (i + 1) ts

def buildIdIndex (l : List LocalizedType) : Dict Id' Nat :=
  buildIdIndexAux [] 0 l

/-- `childrenById[type.parentId].push(type.id)`, initializing the array when
the key is absent (an existing array, even empty, is truthy). -/
def dpushChild (d : Dict Id' (List Id')) (p c : Id') : Dict Id' (List Id') :=
  match dlookup d p with
  | none => dinsert d p [c]
  | some l => dinsert d p (l ++ [c])

/-- The `forEach` of `createTypesAccess` / `filter`, restricted to the
`childrenById` dictionary. The source builds both dictionaries in one loop;
the two loops are independent, so they are split here. -/
def buildChildrenAux (d : Dict Id' (List Id')) :
    List LocalizedType → Dict Id' (List Id')
  | [] => d
  | t :: ts => buildChildrenAux (dpushChild d t.parentId t.id) ts

def buildChildrenById (l : List LocalizedType) : Dict Id' (List Id') :=
  buildChildrenAux [] l

/-- The `TypesAccess` class (line 80): the three fields set by the
constructor. -/
structure TypesAccess : Type where
  localizedTypes : List LocalizedType
  idIndex : Dict Id' Nat
  childrenById : Dict Id' (List Id')
  deriving DecidableEq, Repr

/-- `createTypesAccess` (lines 50-61). -/
def createTypesAccess (localizedTypes : List LocalizedType) : TypesAccess :=
  { localizedTypes := localizedTypes
    idIndex := buildIdIndex localizedTypes
    childrenById := buildChildrenById localizedTypes }

/-- The menu entry record (line 23). -/
structure TypeSelectMenuEntry : Type where
  value : Id'
  label : String
  scientificName : String
  commonName : String
  taxonomicRank : Int
  deriving DecidableEq, Repr

/-- `toMenuEntry` (lines 63-78). -/
def toMenuEntry (t : LocalizedType) : TypeSelectMenuEntry :=
  { value := t.id
    label :=
      if t.scientificName ≠ "" ∧ t.commonName ≠ "" then
        t.scientificName ++ " (" ++ t.commonName ++ ")"
      else if t.scientificName ≠ "" then t.scientificName
      else "\"" ++ t.commonName ++ "\""
    scientificName := t.scientificName
    commonName := t.commonName
    taxonomicRank := t.taxonomicRank }

namespace TypesAccess

/-- `getType` (line 93): `localizedTypes[idIndex[id]]`, `undefined` when the
id is absent (or the stored index out of range). -/
def getType (a : TypesAccess) (id : Id') : Option LocalizedType :=
  (dlookup a.idIndex id).bind (fun i => a.localizedTypes[i]?)

/-- `getCommonName` (line 96). -/
def getCommonName (a : TypesAccess) (id : Id') : String :=
  match (dlookup a.idIndex id).bind (fun i => a.localizedTypes[i]?) with
  | some t => t.commonName
  | none => ""

/-- `getScientificName` (line 101). -/
def getScientificName (a : TypesAccess) (id : Id') : String :=
  match (dlookup a.idIndex id).bind (fun i => a.localizedTypes[i]?) with
  | some t => t.scientificName
  | none => ""

/-- `asMenuEntries` (line 105). -/
def asMenuEntries (a : TypesAccess) : List TypeSelectMenuEntry :=
  a.localizedTypes.map toMenuEntry

/-- `getMenuEntry` (line 108): `null` when the id is unknown. -/
def getMenuEntry (a : TypesAccess) (id : Id') : Option TypeSelectMenuEntry :=
  match (dlookup a.idIndex id).bind (fun i => a.localizedTypes[i]?) with
  | some t => some (toMenuEntry t)
  | none => none

/-- `TypesAccess.filter` (lines 113-127): filter the list, rebuild both
dictionaries from scratch over the filtered list. -/
def filter (a : TypesAccess) (predicate : LocalizedType → Bool) :
    TypesAccess :=
  let filteredTypes := a.localizedTypes.filter predicate
  { localizedTypes := filteredTypes
    idIndex := buildIdIndex filteredTypes
    childrenById := buildChildrenById filteredTypes }

/-- `onlyAllowedParents` (line 129). -/
def onlyAllowedParents (a : TypesAccess) : TypesAccess :=
  a.filter (fun t => ¬ (t.taxonomicRank = 9) ∧ ¬ (t.id = PENDING_ID))

/-- `addType` (lines 135-140): a brand-new `TypesAccess` over the spread
copy of the receiver's list plus the localized new record. -/
def addType (a : TypesAccess) (newType : SchemaType) (language : String) :
    TypesAccess :=
  createTypesAccess (a.localizedTypes ++ [localize newType language])

/-- The receiver's state after a call of `addType` on it: the method body
reads `this.localizedTypes` into a fresh spread-copied array and
`createTypesAccess` fills dictionaries allocated inside it; no statement of
the body writes to the receiver's fields, so the post-state is
field-for-field the pre-state. -/
def addTypeReceiverAfter (a : TypesAccess) (_newType : SchemaType)
    (_language : String) : TypesAccess :=
  a

end TypesAccess

/-! ## The aggregation engine (`_getTotalCount`, `calculateAggregatedCounts`) -/

/-- Every id mentioned by `childrenById`: its keys and every member of every
children list. -/
def allIds (cb : Dict Id' (List Id')) : List Id' :=
  cb.foldr (fun p acc => p.1 :: (p.2 ++ acc)) []

/-- The ids reachable by the aggregation pass: the keys of `childrenById`
together with the members of the children list each key actually holds
(its first binding). -/
def hierIds (cb : Dict Id' (List Id')) : List Id' :=
  (cb.map (fun p => p.1)) ++
    (cb.map (fun p => p.1)).flatMap (fun k => (dlookup cb k).getD [])

/-- `childrenById[id]`, the empty list when the key is absent (the source
guards the loop with `?.`). -/
def kidsOf (cb : Dict Id' (List Id')) (id : Id') : List Id' :=
  (dlookup cb id).getD []

/-- `countsById[id] ?? 0`. -/
def cnt0 (cnt : Dict Id' Int) (id : Id') : Int :=
  (dlookup cnt id).getD 0

/-- The number stored for `id` in the (partial) result dictionary, `0` when
absent; reads of completed entries in the source always go through `?? 0` or
`|| 0`. -/
def val (r : Dict Id' Int) (id : Id') : Int :=
  (dlookup r id).getD 0

/-- The `forEach` over `childrenById[id]` inside `_getTotalCount`, with the
recursive call abstracted as `rec`:
`result[id] += _getTotalCount(result, childId, ...)` reads `result[id]`
before the recursive call and adds the call's return value, which is
`result[childId]` of the updated dictionary. `none` propagates fuel
exhaustion from `rec`. -/
def goChildren (rec : Dict Id' Int → Id' → Option (Dict Id' Int))
    (r : Dict Id' Int) (id : Id') : List Id' → Option (Dict Id' Int)
  | [] => some r
  | c :: cs' =>
    let cur := val r id
    match rec r c with
    | none => none
    | some r' => goChildren rec (dinsert r' id (cur + val r' c)) id cs'

/-- `_getTotalCount` (lines 143-157), with the shared mutable `result`
dictionary threaded through and a fuel argument standing for the call
stack's depth (the JS recursion has no fuel; `getTotalCount_isSome` below
shows a fuel of `(allIds cb).dedup.length + 1` always suffices, so the fuel
never changes the modelled behaviour). On a memo hit the dictionary is
returned unchanged; otherwise `result[id] = countsById[id] ?? 0` is written
before the children are visited, and each child's contribution is added by
`goChildren`. The function's JS return value is `result[id]` of the
returned dictionary, so only the dictionary is threaded. -/
def getTotalCount (cb : Dict Id' (List Id')) (cnt : Dict Id' Int) :
    Nat → Dict Id' Int → Id' → Option (Dict Id' Int)
  | 0 => fun _ _ => none
  | fuel' + 1 => fun r id =>
    match dlookup r id with
    | some _ => some r
    | none =>
      goChildren (getTotalCount cb cnt fuel') (dinsert r id (cnt0 cnt id)) id
        (kidsOf cb id)

/-- The loop of `calculateAggregatedCounts` (lines 159-168) over the keys of
`childrenById`. -/
def goKeys (cb : Dict Id' (List Id')) (cnt : Dict Id' Int) (fuel : Nat) :
    Dict Id' Int → List (Id' × List Id') → Option (Dict Id' Int)
  | r, [] => some r
  | r, p :: ps =>
    match getTotalCount cb cnt fuel r p.1 with
    | none => none
    | some r' => goKeys cb cnt fuel r' ps

/-- A call-stack bound that always suffices: one more than the number of
distinct ids `childrenById` mentions (`getTotalCount_isSome`). -/
def aggFuel (cb : Dict Id' (List Id')) : Nat :=
  (allIds cb).dedup.length + 1

/-- `calculateAggregatedCounts` (lines 159-168), `none` only on fuel
exhaustion, which `calculateAggregatedCounts_isSome` rules out. -/
def calculateAggregatedCountsO (cb : Dict Id' (List Id'))
    (cnt : Dict Id' Int) : Option (Dict Id' Int) :=
  goKeys cb cnt (aggFuel cb) [] cb

/-- `calculateAggregatedCounts` as the total function the JS function is. -/
def calculateAggregatedCounts (cb : Dict Id' (List Id'))
    (cnt : Dict Id' Int) : Dict Id' Int :=
  (calculateAggregatedCountsO cb cnt).getD []

/-- The `TypesFrequency` class (line 181): the `TypesAccess` fields plus the
raw counts and the aggregated counts. -/
structure TypesFrequency : Type where
  localizedTypes : List LocalizedType
  idIndex : Dict Id' Nat
  childrenById : Dict Id' (List Id')
  countsById : Dict Id' Int
  aggregatedCountsById : Dict Id' Int
  deriving DecidableEq, Repr

/-- The `TypesFrequency` constructor (lines 184-196): stores the four
arguments and computes `aggregatedCountsById` once, eagerly. -/
def mkTypesFrequency (localizedTypes : List LocalizedType)
    (idIndex : Dict Id' Nat) (childrenById : Dict Id' (List Id'))
    (countsById : Dict Id' Int) : TypesFrequency :=
  { localizedTypes := localizedTypes
    idIndex := idIndex
    childrenById := childrenById
    countsById := countsById
    aggregatedCountsById := calculateAggregatedCounts childrenById countsById }

/-- `createTypesFrequency` (lines 170-179). -/
def createTypesFrequency (typesAccess : TypesAccess)
    (countsById : Dict Id' Int) : TypesFrequency :=
  mkTypesFrequency typesAccess.localizedTypes typesAccess.idIndex
    typesAccess.childrenById countsById

namespace TypesFrequency

/-- `getCount` (line 197): `countsById[id] || 0`. -/
def getCount (f : TypesFrequency) (id : Id') : Int :=
  jsOr0 (dlookup f.countsById id)

/-- `getAggregatedCount` (line 200): `aggregatedCountsById[id] || 0`. -/
def getAggregatedCount (f : TypesFrequency) (id : Id') : Int :=
  jsOr0 (dlookup f.aggregatedCountsById id)

/-- `TypesFrequency.filter` (lines 204-225): filter the list, rebuild both
index dictionaries and carry each surviving record's raw count over
(`newCountsById[type.id] = this.countsById[type.id]`; when the receiver has
no count the JS key holds `undefined`, indistinguishable from an absent key
under the module's `?? 0` / `|| 0` reads, so it is left absent here), then
construct a new `TypesFrequency`, which recomputes aggregated counts. -/
def filter (f : TypesFrequency) (predicate : LocalizedType → Bool) :
    TypesFrequency :=
  let filteredTypes := f.localizedTypes.filter predicate
  let newCountsById :=
    filteredTypes.foldl
      (fun d t =>
        match dlookup f.countsById t.id with
        | some v => dinsert d t.id v
        | none => d) []
  mkTypesFrequency filteredTypes (buildIdIndex filteredTypes)
    (buildChildrenById filteredTypes) newCountsById

/-- `dropZeroCounts` (lines 227-231): filter by the receiver's own
aggregated count being positive. -/
def dropZeroCounts (f : TypesFrequency) : TypesFrequency :=
  f.filter (fun t => f.getAggregatedCount t.id > 0)

end TypesFrequency

/-! ## Display order and the factory -/

/-- Whether `!o.scientificName` is `true`: the name is empty. -/
def emptySn (t : LocalizedType) : Bool := t.scientificName = ""

/-- The lexicographic "is not after" relation of the `sortBy` iteratees of
`toDisplayOrder` (lines 234-240): `!scientificName` ascending (`false`
before `true`), then `scientificName` ascending, then `-taxonomicRank`
ascending (rank descending), then `commonName` ascending. -/
def keyLe (a b : LocalizedType) : Bool :=
  if emptySn a = emptySn b then
    if a.scientificName = b.scientificName then
      if a.taxonomicRank = b.taxonomicRank then
        decide (a.commonName ≤ b.commonName)
      else decide (b.taxonomicRank < a.taxonomicRank)
    else decide (a.scientificName < b.scientificName)
  else ! emptySn a

/-- `keyLe` as a relation, for the sort. -/
def displayLe (a b : LocalizedType) : Prop := keyLe a b = true

instance : DecidableRel displayLe := fun a b => instDecidableEqBool (keyLe a b) true

/-- `toDisplayOrder` (lines 234-240): lodash `sortBy` is a stable sort by
the iteratee tuple, and any two stable sorts by the same total preorder
produce the same list, here the stable insertion sort by `displayLe`. -/
def toDisplayOrder (localizedTypes : List LocalizedType) :
    List LocalizedType :=
  List.insertionSort displayLe localizedTypes

/-- The synthetic record pushed by `typesAccessInLanguage` (lines 248-255). -/
def pendingRecord : LocalizedType :=
  { id := PENDING_ID
    parentId := 0
    scientificName := ""
    commonName := "Pending Review"
    taxonomicRank := 0
    urls := [] }

/-- `typesAccessInLanguage` (lines 242-258). -/
def typesAccessInLanguage (types : List SchemaType) (language : String) :
    TypesAccess :=
  let localizedTypes := types.map (fun t => localize t language)
  let localizedTypes' :=
    if types.any (fun t => t.pending) then localizedTypes ++ [pendingRecord]
    else localizedTypes
  createTypesAccess (toDisplayOrder localizedTypes')

/-! ## Characterizing the two index builders -/

/-- The ids of the records of `l` whose parent is `p`, in list order. -/
def childList (l : List LocalizedType) (p : Id') : List Id' :=
  (l.filter (fun t => t.parentId = p)).map (fun t => t.id)

theorem childList_nil (p : Id') : childList [] p = [] := rfl

theorem childList_cons (t : LocalizedType) (ts : List LocalizedType)
    (p : Id') :
    childList (t :: ts) p =
      if t.parentId = p then t.id :: childList ts p else childList ts p := by
  by_cases h : t.parentId = p <;> simp [childList, List.filter_cons, h]

theorem dlookup_dpushChild (d : Dict Id' (List Id')) (p c q : Id') :
    dlookup (dpushChild d p c) q =
      if p = q then some ((dlookup d p).getD [] ++ [c]) else dlookup d q := by
  unfold dpushChild
  cases h : dlookup d p with
  | none => by_cases hpq : p = q <;> simp [dlookup_dinsert, hpq]
  | some l => by_cases hpq : p = q <;> simp [dlookup_dinsert, hpq, h]

theorem dlookup_buildChildrenAux (l : List LocalizedType)
    (d : Dict Id' (List Id')) (p : Id') :
    dlookup (buildChildrenAux d l) p =
      if (dlookup d p).isNone ∧ childList l p = [] then none
      else some ((dlookup d p).getD [] ++ childList l p) := by
  induction l generalizing d with
  | nil =>
    cases h : dlookup d p <;> simp [buildChildrenAux, childList, h]
  | cons t ts ih =>
    show dlookup (buildChildrenAux (dpushChild d t.parentId t.id) ts) p = _
    rw [ih, childList_cons]
    by_cases hp : t.parentId = p
    · subst hp
      simp [dlookup_dpushChild]
    · simp [dlookup_dpushChild, hp]

theorem dlookup_buildChildrenById (l : List LocalizedType) (p : Id') :
    dlookup (buildChildrenById l) p =
      if childList l p = [] then none else some (childList l p) := by
  unfold buildChildrenById
  rw [dlookup_buildChildrenAux]
  simp [dlookup]

theorem kidsOf_buildChildrenById (l : List LocalizedType) (p : Id') :
    kidsOf (buildChildrenById l) p = childList l p := by
  unfold kidsOf
  rw [dlookup_buildChildrenById]
  by_cases h : childList l p = [] <;> simp [h]

/-- The position of the last record of `l` whose id is `k` (the JS loop's
last write wins). -/
def lastIdx : List LocalizedType → Id' → Option Nat
  | [], _ => none
  | t :: ts, k =>
    match lastIdx ts k with
    | some j => some (j + 1)
    | none => if t.id = k then some 0 else none

theorem dlookup_buildIdIndexAux (l : List LocalizedType) (d : Dict Id' Nat)
    (i : Nat) (k : Id') :
    dlookup (buildIdIndexAux d i l) k =
      match lastIdx l k with
      | some j => some (i + j)
      | none => dlookup d k := by
  induction l generalizing d i with
  | nil => simp [buildIdIndexAux, lastIdx]
  | cons t ts ih =>
    show dlookup (buildIdIndexAux (dinsert d t.id i) (i + 1) ts) k = _
    rw [ih]
    cases h : lastIdx ts k with
    | some j =>
      simp only [lastIdx, h]
      congr 1
      omega
    | none =>
      by_cases ht : t.id = k
      · simp [lastIdx, h, ht, dlookup_dinsert]
      · simp [lastIdx, h, ht, dlookup_dinsert_ne _ _ _ _ ht]

theorem lastIdx_lt_length {l : List LocalizedType} {k : Id'} {j : Nat}
    (h : lastIdx l k = some j) : j < l.length := by
  induction l generalizing j with
  | nil => simp [lastIdx] at h
  | cons t ts ih =>
    simp only [lastIdx] at h
    cases h' : lastIdx ts k with
    | some j' =>
      rw [h'] at h
      have := ih h'
      simp at h
      simp [List.length_cons]
      omega
    | none =>
      rw [h'] at h
      by_cases ht : t.id = k
      · simp [ht] at h
        simp [← h]
      · simp [ht] at h

theorem lastIdx_get {l : List LocalizedType} {k : Id'} {j : Nat}
    (h : lastIdx l k = some j) (hj : j < l.length) :
    (l.get ⟨j, hj⟩).id = k := by
  induction l generalizing j with
  | nil => simp [lastIdx] at h
  | cons t ts ih =>
    simp only [lastIdx] at h
    cases h' : lastIdx ts k with
    | some j' =>
      rw [h'] at h
      simp at h
      subst h
      have hj' : j' < ts.length := lastIdx_lt_length h'
      simpa using ih h' hj'
    | none =>
      rw [h'] at h
      by_cases ht : t.id = k
      · simp [ht] at h
        subst h
        simpa using ht
      · simp [ht] at h

theorem lastIdx_eq_none {l : List LocalizedType} {k : Id'} :
    lastIdx l k = none ↔ ∀ t ∈ l, t.id ≠ k := by
  induction l with
  | nil => simp [lastIdx]
  | cons t ts ih =>
    simp only [lastIdx]
    cases h' : lastIdx ts k with
    | some j => simp [List.forall_mem_cons, ← ih, h']
    | none =>
      by_cases ht : t.id = k <;> simp [ht, List.forall_mem_cons, ← ih, h']

/-! ## Claims C4, C9, C7, C5 -/

theorem filter_self_filter (p : LocalizedType → Bool)
    (l : List LocalizedType) : (l.filter p).filter p = l.filter p := by
  induction l with
  | nil => rfl
  | cons t ts ih =>
    by_cases h : p t <;> simp [List.filter_cons, h, ih]

/-- C4: for every `TypesAccess` and predicate `p`, filtering twice with `p`
yields the same result as filtering once — same record list, same
`idIndex`, same `childrenById`. -/
theorem typesAccess_filter_idempotent (a : TypesAccess)
    (p : LocalizedType → Bool) :
    ((a.filter p).filter p).localizedTypes = (a.filter p).localizedTypes ∧
    ((a.filter p).filter p).idIndex = (a.filter p).idIndex ∧
    ((a.filter p).filter p).childrenById = (a.filter p).childrenById := by
  have hl : ((a.filter p).filter p).localizedTypes
      = (a.filter p).localizedTypes := by
    show (a.localizedTypes.filter p).filter p = a.localizedTypes.filter p
    exact filter_self_filter p a.localizedTypes
  refine ⟨hl, ?_, ?_⟩
  · show buildIdIndex ((a.localizedTypes.filter p).filter p)
        = buildIdIndex (a.localizedTypes.filter p)
    rw [filter_self_filter]
  · show buildChildrenById ((a.localizedTypes.filter p).filter p)
        = buildChildrenById (a.localizedTypes.filter p)
    rw [filter_self_filter]

/-- C9: `addType` builds a brand-new `TypesAccess` over the receiver's list
plus the localized record and leaves the receiver unchanged — the body
writes none of the receiver's fields (`addTypeReceiverAfter` is the
statement-by-statement effect of the call on the receiver), so every
`getType` result on the receiver is the same after the call as before. -/
theorem addType_does_not_mutate (a : TypesAccess) (newType : SchemaType)
    (language : String) :
    TypesAccess.addTypeReceiverAfter a newType language = a ∧
    (∀ id, (TypesAccess.addTypeReceiverAfter a newType language).getType id
        = a.getType id ∧
      (TypesAccess.addTypeReceiverAfter a newType language).localizedTypes
        = a.localizedTypes ∧
      (TypesAccess.addTypeReceiverAfter a newType language).idIndex
        = a.idIndex ∧
      (TypesAccess.addTypeReceiverAfter a newType language).childrenById
        = a.childrenById) ∧
    a.addType newType language
      = createTypesAccess (a.localizedTypes ++ [localize newType language]) :=
  ⟨rfl, fun _ => ⟨rfl, rfl, rfl, rfl⟩, rfl⟩

/-- C7: `TypesAccess.filter` keeps exactly the records satisfying the
predicate, in their original relative order, rebuilds both indices from
scratch over the filtered subset, and every surviving record appears in the
new `childrenById` under its original `parentId` key — whether or not the
parent record itself survived. -/
theorem typesAccess_filter_spec (a : TypesAccess) (p : LocalizedType → Bool) :
    (a.filter p).localizedTypes = a.localizedTypes.filter p ∧
    (a.filter p).idIndex = buildIdIndex (a.localizedTypes.filter p) ∧
    (a.filter p).childrenById = buildChildrenById (a.localizedTypes.filter p) ∧
    (∀ t ∈ (a.filter p).localizedTypes,
      t.id ∈ kidsOf (a.filter p).childrenById t.parentId) := by
  refine ⟨rfl, rfl, rfl, ?_⟩
  intro t ht
  show t.id ∈ kidsOf (buildChildrenById (a.localizedTypes.filter p)) t.parentId
  rw [kidsOf_buildChildrenById]
  exact List.mem_map.2 ⟨t, List.mem_filter.2 ⟨ht, by simp⟩, rfl⟩

/-- C5: over the built `TypesAccess`, `getType` of a present id returns a
record with that id, and an absent id gives `undefined` from `getType`,
the empty string from both name accessors and `null` from `getMenuEntry` —
every accessor is total. -/
theorem builtAccess_lookup_spec (L : List LocalizedType) (id : Id') :
    ((∃ t ∈ L, t.id = id) →
      ∃ t, (createTypesAccess L).getType id = some t ∧ t.id = id) ∧
    ((∀ t ∈ L, t.id ≠ id) →
      (createTypesAccess L).getType id = none ∧
      (createTypesAccess L).getCommonName id = "" ∧
      (createTypesAccess L).getScientificName id = "" ∧
      (createTypesAccess L).getMenuEntry id = none) := by
  have hidx : dlookup (createTypesAccess L).idIndex id =
      match lastIdx L id with
      | some j => some j
      | none => none := by
    show dlookup (buildIdIndexAux [] 0 L) id = _
    rw [dlookup_buildIdIndexAux]
    cases lastIdx L id <;> simp [dlookup]
  constructor
  · rintro ⟨t, ht, rfl⟩
    cases heq : lastIdx L t.id with
    | none =>
      exact absurd (lastIdx_eq_none.1 heq t ht) (by simp)
    | some j =>
      rw [heq] at hidx
      have hj : j < L.length := lastIdx_lt_length heq
      refine ⟨L.get ⟨j, hj⟩, ?_, lastIdx_get heq hj⟩
      unfold TypesAccess.getType
      rw [hidx]
      show L[j]? = some (L.get ⟨j, hj⟩)
      exact List.getElem?_eq_getElem hj
  · intro habs
    have hnone : lastIdx L id = none := lastIdx_eq_none.2 habs
    rw [hnone] at hidx
    refine ⟨?_, ?_, ?_, ?_⟩ <;>
      simp [TypesAccess.getType, TypesAccess.getCommonName,
        TypesAccess.getScientificName, TypesAccess.getMenuEntry, hidx]

/-! ## Claim C8: the display order -/

theorem emptySn_iff (t : LocalizedType) :
    emptySn t = true ↔ t.scientificName = "" := by
  simp [emptySn]

theorem keyLe_total (a b : LocalizedType) :
    keyLe a b = true ∨ keyLe b a = true := by
  unfold keyLe
  by_cases he : emptySn a = emptySn b
  · rw [if_pos he, if_pos he.symm]
    by_cases hs : a.scientificName = b.scientificName
    · rw [if_pos hs, if_pos hs.symm]
      by_cases hr : a.taxonomicRank = b.taxonomicRank
      · rw [if_pos hr, if_pos hr.symm]
        simp only [decide_eq_true_eq]
        exact le_total _ _
      · rw [if_neg hr, if_neg (fun h => hr h.symm)]
        simp only [decide_eq_true_eq]
        omega
    · rw [if_neg hs, if_neg (fun h => hs h.symm)]
      simp only [decide_eq_true_eq]
      rcases lt_trichotomy a.scientificName b.scientificName with h | h | h
      · exact Or.inl h
      · exact absurd h hs
      · exact Or.inr h
  · rw [if_neg he, if_neg (fun h => he h.symm)]
    cases ha : emptySn a
    · simp
    · cases hb : emptySn b
      · simp
      · rw [ha, hb] at he
        exact absurd rfl he

theorem keyLe_trans {a b c : LocalizedType} (h1 : keyLe a b = true)
    (h2 : keyLe b c = true) : keyLe a c = true := by
  unfold keyLe at h1 h2 ⊢
  by_cases e1 : emptySn a = emptySn b
  · rw [if_pos e1] at h1
    by_cases e2 : emptySn b = emptySn c
    · rw [if_pos e2] at h2
      rw [if_pos (e1.trans e2)]
      by_cases s1 : a.scientificName = b.scientificName
      · rw [if_pos s1] at h1
        by_cases s2 : b.scientificName = c.scientificName
        · rw [if_pos s2] at h2
          rw [if_pos (s1.trans s2)]
          by_cases r1 : a.taxonomicRank = b.taxonomicRank
          · rw [if_pos r1] at h1
            by_cases r2 : b.taxonomicRank = c.taxonomicRank
            · rw [if_pos r2] at h2
              rw [if_pos (r1.trans r2)]
              simp only [decide_eq_true_eq] at h1 h2 ⊢
              exact le_trans h1 h2
            · rw [if_neg r2] at h2
              have r3 : ¬ a.taxonomicRank = c.taxonomicRank := by rw [r1]; exact r2
              rw [if_neg r3]
              simp only [decide_eq_true_eq] at h2 ⊢
              omega
          · rw [if_neg r1] at h1
            simp only [decide_eq_true_eq] at h1
            by_cases r2 : b.taxonomicRank = c.taxonomicRank
            · have r3 : ¬ a.taxonomicRank = c.taxonomicRank := by rw [← r2]; exact r1
              rw [if_neg r3]
              simp only [decide_eq_true_eq]
              omega
            · rw [if_neg r2] at h2
              simp only [decide_eq_true_eq] at h2
              have r3 : ¬ a.taxonomicRank = c.taxonomicRank := by omega
              rw [if_neg r3]
              simp only [decide_eq_true_eq]
              omega
        · rw [if_neg s2] at h2
          simp only [decide_eq_true_eq] at h2
          have hlt : a.scientificName < c.scientificName := s1 ▸ h2
          rw [if_neg (ne_of_lt hlt)]
          simp only [decide_eq_true_eq]
          exact hlt
      · rw [if_neg s1] at h1
        simp only [decide_eq_true_eq] at h1
        by_cases s2 : b.scientificName = c.scientificName
        · have hlt : a.scientificName < c.scientificName := s2 ▸ h1
          rw [if_neg (ne_of_lt hlt)]
          simp only [decide_eq_true_eq]
          exact hlt
        · rw [if_neg s2] at h2
          simp only [decide_eq_true_eq] at h2
          have hlt : a.scientificName < c.scientificName := lt_trans h1 h2
          rw [if_neg (ne_of_lt hlt)]
          simp only [decide_eq_true_eq]
          exact hlt
    · rw [if_neg e2] at h2
      have e3 : ¬ emptySn a = emptySn c := by rw [e1]; exact e2
      rw [if_neg e3]
      rw [e1]
      exact h2
  · rw [if_neg e1] at h1
    by_cases e2 : emptySn b = emptySn c
    · have e3 : ¬ emptySn a = emptySn c := by rw [← e2]; exact e1
      rw [if_neg e3]
      exact h1
    · rw [if_neg e2] at h2
      simp only [Bool.not_eq_true'] at h1 h2
      exact absurd (h1.trans h2.symm) e1

instance : IsTotal LocalizedType displayLe := ⟨keyLe_total⟩

instance : IsTrans LocalizedType displayLe := ⟨fun _ _ _ => keyLe_trans⟩

/-- The relation C8 states between a record and every record placed after
it: a record with a non-empty scientific name never follows one with an
empty name, and among records with non-empty scientific names the order is
ascending scientific name, then descending taxonomic rank, then ascending
common name. -/
def displayRel (a b : LocalizedType) : Prop :=
  (b.scientificName ≠ "" → a.scientificName ≠ "") ∧
  (a.scientificName ≠ "" → b.scientificName ≠ "" →
    a.scientificName < b.scientificName ∨
      (a.scientificName = b.scientificName ∧
        (b.taxonomicRank < a.taxonomicRank ∨
          (a.taxonomicRank = b.taxonomicRank ∧
            a.commonName ≤ b.commonName))))

theorem displayLe_imp_displayRel {a b : LocalizedType}
    (h : displayLe a b) : displayRel a b := by
  unfold displayLe keyLe at h
  by_cases he : emptySn a = emptySn b
  · rw [if_pos he] at h
    constructor
    · intro hb
      have hb' : emptySn b = false := by simp [emptySn, hb]
      have ha' : emptySn a = false := he.trans hb'
      simp [emptySn] at ha'
      exact ha'
    · intro _ _
      by_cases hs : a.scientificName = b.scientificName
      · rw [if_pos hs] at h
        refine Or.inr ⟨hs, ?_⟩
        by_cases hr : a.taxonomicRank = b.taxonomicRank
        · rw [if_pos hr] at h
          simp only [decide_eq_true_eq] at h
          exact Or.inr ⟨hr, h⟩
        · rw [if_neg hr] at h
          simp only [decide_eq_true_eq] at h
          exact Or.inl h
      · rw [if_neg hs] at h
        simp only [decide_eq_true_eq] at h
        exact Or.inl h
  · rw [if_neg he] at h
    simp only [Bool.not_eq_true'] at h
    have hb : emptySn b = true := by
      cases hb' : emptySn b
      · rw [h, hb'] at he
        exact absurd rfl he
      · rfl
    have hbsn : b.scientificName = "" := (emptySn_iff b).1 hb
    constructor
    · intro hbne
      exact absurd hbsn hbne
    · intro _ hbne
      exact absurd hbsn hbne

/-- C8: `toDisplayOrder` orders the records so that every record with a
non-empty scientific name precedes every record with an empty one, records
with non-empty scientific names appear in ascending scientific-name order
with ties broken by descending taxonomic rank and then ascending common
name (`displayRel` holds between each record and every record after it),
the output is a permutation of the input, and `typesAccessInLanguage`
feeds exactly this sorted order to index construction. -/
theorem toDisplayOrder_spec :
    (∀ l : List LocalizedType,
      List.Pairwise displayRel (toDisplayOrder l)) ∧
    (∀ l : List LocalizedType, (toDisplayOrder l).Perm l) ∧
    (∀ (types : List SchemaType) (language : String),
      typesAccessInLanguage types language =
        createTypesAccess (toDisplayOrder
          (if types.any (fun t => t.pending) then
            types.map (fun t => localize t language) ++ [pendingRecord]
          else types.map (fun t => localize t language)))) := by
  refine ⟨?_, ?_, ?_⟩
  · intro l
    have hs : List.Sorted displayLe (toDisplayOrder l) :=
      List.sorted_insertionSort displayLe l
    exact List.Pairwise.imp (fun h => displayLe_imp_displayRel h) hs
  · intro l
    exact List.perm_insertionSort displayLe l
  · intro types language
    rfl

/-! ## Termination of the aggregation engine -/

theorem mem_allIds_key {cb : Dict Id' (List Id')} {p : Id' × List Id'}
    (hp : p ∈ cb) : p.1 ∈ allIds cb := by
  induction cb with
  | nil => simp at hp
  | cons q rest ih =>
    rcases List.mem_cons.1 hp with rfl | hp'
    · simp [allIds]
    · simp only [allIds, List.foldr_cons]
      exact List.mem_cons_of_mem _ (List.mem_append_right _ (ih hp'))

theorem mem_allIds_child {cb : Dict Id' (List Id')} {p : Id' × List Id'}
    (hp : p ∈ cb) {c : Id'} (hc : c ∈ p.2) : c ∈ allIds cb := by
  induction cb with
  | nil => simp at hp
  | cons q rest ih =>
    rcases List.mem_cons.1 hp with rfl | hp'
    · simp only [allIds, List.foldr_cons]
      exact List.mem_cons_of_mem _ (List.mem_append_left _ hc)
    · simp only [allIds, List.foldr_cons]
      exact List.mem_cons_of_mem _ (List.mem_append_right _ (ih hp'))

theorem kidsOf_mem_allIds {cb : Dict Id' (List Id')} {id c : Id'}
    (hc : c ∈ kidsOf cb id) : c ∈ allIds cb := by
  unfold kidsOf at hc
  cases hl : dlookup cb id with
  | none => simp [hl] at hc
  | some l =>
    rw [hl] at hc
    exact mem_allIds_child (dlookup_mem hl) hc

theorem kidsOf_eq_nil_of_not_mem {cb : Dict Id' (List Id')} {id : Id'}
    (h : id ∉ allIds cb) : kidsOf cb id = [] := by
  unfold kidsOf
  cases hl : dlookup cb id with
  | none => rfl
  | some l => exact absurd (mem_allIds_key (dlookup_mem hl)) h

/-- How many ids of `U` the partial result dictionary has not yet seen: the
nesting depth still available to `_getTotalCount`. -/
def missing (U : List Id') (r : Dict Id' Int) : Nat :=
  (U.dedup.filter (fun i => (dlookup r i).isNone)).length

theorem missing_le (U : List Id') (r : Dict Id' Int) :
    missing U r ≤ U.dedup.length :=
  List.length_filter_le _ _

theorem countP_lt_of_imp {α : Type} {p q : α → Bool} :
    ∀ (l : List α), (∀ a ∈ l, p a = true → q a = true) →
      ∀ x ∈ l, q x = true → p x = false → l.countP p < l.countP q := by
  intro l
  induction l with
  | nil => intro _ x hx; simp at hx
  | cons a l' ih =>
    intro himp x hx hqx hpx
    have himp' : ∀ b ∈ l', p b = true → q b = true :=
      fun b hb => himp b (List.mem_cons_of_mem _ hb)
    have hle : l'.countP p ≤ l'.countP q := List.countP_mono_left himp'
    rcases List.mem_cons.1 hx with rfl | hx'
    · rw [List.countP_cons, List.countP_cons, hpx, hqx]
      simp
      omega
    · have := ih himp' x hx' hqx hpx
      rw [List.countP_cons, List.countP_cons]
      by_cases hpa : p a = true
      · rw [hpa, himp a (List.mem_cons_self _ _) hpa]
        omega
      · rw [Bool.not_eq_true] at hpa
        rw [hpa]
        simp
        omega

theorem missing_mono {U : List Id'} {r r' : Dict Id' Int}
    (h : ∀ k, (dlookup r k).isSome = true → (dlookup r' k).isSome = true) :
    missing U r' ≤ missing U r := by
  unfold missing
  rw [← List.countP_eq_length_filter, ← List.countP_eq_length_filter]
  apply List.countP_mono_left
  intro a _ ha
  simp only [Option.isNone_iff_eq_none] at ha ⊢
  cases hl : dlookup r a with
  | none => rfl
  | some v =>
    have := h a (by simp [hl])
    rw [ha] at this
    simp at this

theorem missing_dinsert_lt {U : List Id'} {r : Dict Id' Int} {id : Id'}
    (hid : id ∈ U) (hl : dlookup r id = none) (v : Int) :
    missing U (dinsert r id v) < missing U r := by
  unfold missing
  rw [← List.countP_eq_length_filter, ← List.countP_eq_length_filter]
  apply countP_lt_of_imp
  · intro a _ ha
    simp only [Option.isNone_iff_eq_none] at ha ⊢
    rw [dlookup_dinsert] at ha
    by_cases h : id = a
    · simp [h] at ha
    · rwa [if_neg h] at ha
  · exact List.mem_dedup.2 hid
  · simp [hl]
  · simp [dlookup_dinsert_self]

theorem dlookup_isSome_dinsert {d : Dict Id' Int} {k' : Id'} (k : Id')
    (v : Int) (h : (dlookup d k').isSome = true) :
    (dlookup (dinsert d k v) k').isSome = true := by
  rw [dlookup_dinsert]
  by_cases hk : k = k' <;> simp [hk, h]

theorem goChildren_mono
    (rec : Dict Id' Int → Id' → Option (Dict Id' Int))
    (hmono : ∀ r c r', rec r c = some r' →
      ∀ k, (dlookup r k).isSome = true → (dlookup r' k).isSome = true) :
    ∀ (cs : List Id') (r : Dict Id' Int) (id : Id') (r' : Dict Id' Int),
      goChildren rec r id cs = some r' →
      ∀ k, (dlookup r k).isSome = true → (dlookup r' k).isSome = true := by
  intro cs
  induction cs with
  | nil =>
    intro r id r' h k hk
    simp only [goChildren, Option.some.injEq] at h
    rwa [← h]
  | cons c cs' ih =>
    intro r id r' h k hk
    simp only [goChildren] at h
    cases hrec : rec r c with
    | none => rw [hrec] at h; simp at h
    | some r₁ =>
      rw [hrec] at h
      exact ih _ id r' h k
        (dlookup_isSome_dinsert id _ (hmono r c r₁ hrec k hk))

theorem getTotalCount_mono (cb : Dict Id' (List Id')) (cnt : Dict Id' Int) :
    ∀ (fuel : Nat) (r : Dict Id' Int) (id : Id') (r' : Dict Id' Int),
      getTotalCount cb cnt fuel r id = some r' →
      ∀ k, (dlookup r k).isSome = true → (dlookup r' k).isSome = true := by
  intro fuel
  induction fuel with
  | zero =>
    intro r id r' h
    simp [getTotalCount] at h
  | succ f ih =>
    intro r id r' h k hk
    simp only [getTotalCount] at h
    cases hl : dlookup r id with
    | some v =>
      rw [hl] at h
      simp only [Option.some.injEq] at h
      rwa [← h]
    | none =>
      rw [hl] at h
      exact goChildren_mono _ ih _ _ id r' h k
        (dlookup_isSome_dinsert id _ hk)

theorem goChildren_isSome
    (rec : Dict Id' Int → Id' → Option (Dict Id' Int)) (U : List Id')
    (n : Nat)
    (hsome : ∀ r c, missing U r < n → (rec r c).isSome = true)
    (hmono : ∀ r c r', rec r c = some r' →
      ∀ k, (dlookup r k).isSome = true → (dlookup r' k).isSome = true) :
    ∀ (cs : List Id') (r : Dict Id' Int) (id : Id'),
      missing U r < n → (goChildren rec r id cs).isSome = true := by
  intro cs
  induction cs with
  | nil => intro r id _; simp [goChildren]
  | cons c cs' ih =>
    intro r id hm
    simp only [goChildren]
    cases hrec : rec r c with
    | none =>
      have := hsome r c hm
      rw [hrec] at this
      simp at this
    | some r₁ =>
      apply ih
      have h1 : missing U r₁ ≤ missing U r :=
        missing_mono (hmono r c r₁ hrec)
      have h2 : missing U (dinsert r₁ id (val r id + val r₁ c)) ≤ missing U r₁ :=
        missing_mono (fun k hk => dlookup_isSome_dinsert id _ hk)
      omega

theorem getTotalCount_isSome (cb : Dict Id' (List Id'))
    (cnt : Dict Id' Int) :
    ∀ (fuel : Nat) (r : Dict Id' Int) (id : Id'),
      missing (allIds cb) r < fuel →
      (getTotalCount cb cnt fuel r id).isSome = true := by
  intro fuel
  induction fuel with
  | zero => intro r id h; omega
  | succ f ih =>
    intro r id h
    simp only [getTotalCount]
    cases hl : dlookup r id with
    | some v => simp
    | none =>
      by_cases hid : id ∈ allIds cb
      · have hm : missing (allIds cb) (dinsert r id (cnt0 cnt id)) < f := by
          have := missing_dinsert_lt hid hl (cnt0 cnt id)
          omega
        exact goChildren_isSome _ (allIds cb) f ih (getTotalCount_mono cb cnt f)
          (kidsOf cb id) _ id hm
      · rw [kidsOf_eq_nil_of_not_mem hid]
        simp [goChildren]

theorem goKeys_isSome (cb : Dict Id' (List Id')) (cnt : Dict Id' Int) :
    ∀ (ps : List (Id' × List Id')) (r : Dict Id' Int),
      (goKeys cb cnt (aggFuel cb) r ps).isSome = true := by
  intro ps
  induction ps with
  | nil => intro r; simp [goKeys]
  | cons p ps' ih =>
    intro r
    simp only [goKeys]
    have hm : missing (allIds cb) r < aggFuel cb := by
      have := missing_le (allIds cb) r
      unfold aggFuel
      omega
    cases hgc : getTotalCount cb cnt (aggFuel cb) r p.1 with
    | none =>
      have := getTotalCount_isSome cb cnt (aggFuel cb) r p.1 hm
      rw [hgc] at this
      simp at this
    | some r₁ => exact ih r₁

theorem calculateAggregatedCountsO_isSome (cb : Dict Id' (List Id'))
    (cnt : Dict Id' Int) : (calculateAggregatedCountsO cb cnt).isSome = true :=
  goKeys_isSome cb cnt cb []

/-- C2 (amended): the aggregation engine terminates on every input,
cyclic `childrenById` included: `_getTotalCount` writes the memo entry for
an id before recursing into its children, so every chain of nested calls
visits pairwise distinct ids and is bounded by the number of distinct ids
`childrenById` mentions. Acyclicity is not needed for termination (a
back-edge merely reads the in-progress ancestor's partial total). -/
theorem calculateAggregatedCounts_total (cb : Dict Id' (List Id'))
    (cnt : Dict Id' Int) : (calculateAggregatedCountsO cb cnt).isSome = true :=
  calculateAggregatedCountsO_isSome cb cnt

/-- C2 counterexample: on the two-cycle `1 ↔ 2` (each id a child of the
other) the aggregation pass terminates and returns a result — the claimed
unbounded recursion does not occur. The run even completes within the
canonical fuel `aggFuel`, whose value here is 3. -/
theorem cyclic_aggregation_terminates :
    (2 : Id') ∈ kidsOf [((1 : Id'), [(2 : Id')]), (2, [1])] 1 ∧
    (1 : Id') ∈ kidsOf [((1 : Id'), [(2 : Id')]), (2, [1])] 2 ∧
    calculateAggregatedCountsO [((1 : Id'), [(2 : Id')]), (2, [1])]
        [(1, 10), (2, 100)] = some [(1, 120), (2, 110)] :=
  ⟨by decide, by decide, by decide⟩

/-! ## Correctness of the aggregation engine over an acyclic hierarchy -/

/-- Acyclicity of the child graph, witnessed by a rank function dropping
strictly from every key to each of its listed children. -/
def RankOk (cb : Dict Id' (List Id')) (rk : Id' → Nat) : Prop :=
  ∀ p ∈ cb, ∀ c ∈ p.2, rk c < rk p.1

theorem rank_kids {cb : Dict Id' (List Id')} {rk : Id' → Nat}
    (hrk : RankOk cb rk) {id c : Id'} (hc : c ∈ kidsOf cb id) :
    rk c < rk id := by
  unfold kidsOf at hc
  cases hl : dlookup cb id with
  | none => simp [hl] at hc
  | some l =>
    rw [hl] at hc
    exact hrk _ (dlookup_mem hl) c hc

/-- Every binding of `r` is also a binding of `r'` (completed entries are
never overwritten). -/
def Pres (r r' : Dict Id' Int) : Prop :=
  ∀ k v, dlookup r k = some v → dlookup r' k = some v

theorem pres_isSome {r r' : Dict Id' Int} (h : Pres r r') {k : Id'}
    (hk : (dlookup r k).isSome = true) : (dlookup r' k).isSome = true := by
  cases hl : dlookup r k with
  | none => rw [hl] at hk; simp at hk
  | some v => simp [h k v hl]

theorem pres_val {r r' : Dict Id' Int} (h : Pres r r') {k : Id'}
    (hk : (dlookup r k).isSome = true) : val r' k = val r k := by
  cases hl : dlookup r k with
  | none => rw [hl] at hk; simp at hk
  | some v =>
    unfold val
    rw [h k v hl, hl]

theorem val_dinsert_self (d : Dict Id' Int) (k : Id') (v : Int) :
    val (dinsert d k v) k = v := by
  unfold val
  rw [dlookup_dinsert_self]
  rfl

theorem val_dinsert_ne (d : Dict Id' Int) (k k' : Id') (v : Int)
    (h : k ≠ k') : val (dinsert d k v) k' = val d k' := by
  unfold val
  rw [dlookup_dinsert_ne _ _ _ _ h]

/-- A finished memo entry: present, each listed child present, and its value
equal to its own raw count plus the sum of its children's entries. -/
def Correct (cb : Dict Id' (List Id')) (cnt : Dict Id' Int)
    (r : Dict Id' Int) (k : Id') : Prop :=
  (dlookup r k).isSome = true ∧
  (∀ c ∈ kidsOf cb k, (dlookup r c).isSome = true) ∧
  val r k = cnt0 cnt k + ((kidsOf cb k).map (val r)).sum

/-- While the ids of `P` (the in-progress call stack) may hold partial
totals, every other entry of `r` is finished and its children are not on
the stack. -/
def Good (cb : Dict Id' (List Id')) (cnt : Dict Id' Int)
    (r : Dict Id' Int) (P : List Id') : Prop :=
  ∀ k, (dlookup r k).isSome = true → k ∉ P →
    Correct cb cnt r k ∧ ∀ c ∈ kidsOf cb k, c ∉ P

theorem correct_mono_except {cb : Dict Id' (List Id')} {cnt : Dict Id' Int}
    {r r' : Dict Id' Int} {x k : Id'}
    (hpres : ∀ m v, m ≠ x → dlookup r m = some v → dlookup r' m = some v)
    (hk : Correct cb cnt r k) (hkx : k ≠ x)
    (hcx : ∀ c ∈ kidsOf cb k, c ≠ x) : Correct cb cnt r' k := by
  obtain ⟨hsome, hckids, heq⟩ := hk
  have hvalk : val r' k = val r k := by
    cases hl : dlookup r k with
    | none => rw [hl] at hsome; simp at hsome
    | some v =>
      unfold val
      rw [hpres k v hkx hl, hl]
  have hvalc : ∀ c ∈ kidsOf cb k, val r' c = val r c := by
    intro c hc
    cases hl : dlookup r c with
    | none =>
      have := hckids c hc
      rw [hl] at this
      simp at this
    | some v =>
      unfold val
      rw [hpres c v (hcx c hc) hl, hl]
  refine ⟨?_, ?_, ?_⟩
  · cases hl : dlookup r k with
    | none => rw [hl] at hsome; simp at hsome
    | some v => simp [hpres k v hkx hl]
  · intro c hc
    cases hl : dlookup r c with
    | none =>
      have := hckids c hc
      rw [hl] at this
      simp at this
    | some v => simp [hpres c v (hcx c hc) hl]
  · rw [hvalk, heq]
    rw [List.map_congr_left hvalc]

theorem goChildren_main (cb : Dict Id' (List Id')) (cnt : Dict Id' Int)
    (rk : Id' → Nat) (hrk : RankOk cb rk)
    (rec : Dict Id' Int → Id' → Option (Dict Id' Int))
    (hrec : ∀ (r : Dict Id' Int) (c : Id') (r' : Dict Id' Int)
      (P' : List Id'), rec r c = some r' →
      (∀ p ∈ P', rk c < rk p) → Good cb cnt r P' →
      Pres r r' ∧ (dlookup r' c).isSome = true ∧ Good cb cnt r' P' ∧
      (∀ k, (dlookup r' k).isSome = true →
        (dlookup r k).isSome = true ∨ k ∈ allIds cb ∨ k = c)) :
    ∀ (cs : List Id') (r : Dict Id' Int) (id : Id') (P : List Id')
      (r' : Dict Id' Int),
      goChildren rec r id cs = some r' →
      (∀ c ∈ cs, c ∈ kidsOf cb id) →
      (∀ p ∈ P, rk id < rk p) →
      Good cb cnt r (id :: P) →
      (dlookup r id).isSome = true →
      (∀ k v, k ≠ id → dlookup r k = some v → dlookup r' k = some v) ∧
      (∀ c ∈ cs, (dlookup r' c).isSome = true) ∧
      (dlookup r' id).isSome = true ∧
      val r' id = val r id + (cs.map (val r')).sum ∧
      Good cb cnt r' (id :: P) ∧
      (∀ k, (dlookup r' k).isSome = true →
        (dlookup r k).isSome = true ∨ k ∈ allIds cb) := by
  intro cs
  induction cs with
  | nil =>
    intro r id P r' h _ _ hGood hid
    simp only [goChildren, Option.some.injEq] at h
    subst h
    exact ⟨fun _ _ _ hv => hv, by simp, hid, by simp, hGood,
      fun _ hk => Or.inl hk⟩
  | cons c cs' ih =>
    intro r id P r' h hcs hP hGood hid
    simp only [goChildren] at h
    cases hrc : rec r c with
    | none => rw [hrc] at h; simp at h
    | some r₁ =>
      rw [hrc] at h
      have hc : c ∈ kidsOf cb id := hcs c (List.mem_cons_self _ _)
      have hrkc : rk c < rk id := rank_kids hrk hc
      have hcP : ∀ p ∈ id :: P, rk c < rk p := by
        intro p hp
        rcases List.mem_cons.1 hp with rfl | hp'
        · exact hrkc
        · exact lt_trans hrkc (hP p hp')
      obtain ⟨hpres1, hsome_c, hGood1, hbound1⟩ :=
        hrec r c r₁ (id :: P) hrc hcP hGood
      have hcneid : c ≠ id := fun hEq => absurd (hEq ▸ hrkc) (lt_irrefl _)
      set r₂ := dinsert r₁ id (val r id + val r₁ c) with hr₂
      have hid1 : (dlookup r₁ id).isSome = true := pres_isSome hpres1 hid
      have hid2 : (dlookup r₂ id).isSome = true := by
        rw [hr₂, dlookup_dinsert_self]
        rfl
      have hpres12 : ∀ (m : Id') (v : Int), m ≠ id →
          dlookup r₁ m = some v → dlookup r₂ m = some v := by
        intro m v hm hv
        rw [hr₂, dlookup_dinsert_ne _ _ _ _ (fun hEq => hm hEq.symm)]
        exact hv
      have hGood2 : Good cb cnt r₂ (id :: P) := by
        intro k hk hkP
        have hkne : k ≠ id := fun hEq => hkP (hEq ▸ List.mem_cons_self _ _)
        have hk1 : (dlookup r₁ k).isSome = true := by
          rw [hr₂, dlookup_dinsert_ne _ _ _ _ (fun hEq => hkne hEq.symm)] at hk
          exact hk
        obtain ⟨hCk, hkidsP⟩ := hGood1 k hk1 hkP
        have hkx : ∀ c' ∈ kidsOf cb k, c' ≠ id := fun c' hc' hEq =>
          (hkidsP c' hc') (hEq ▸ List.mem_cons_self _ _)
        exact ⟨correct_mono_except hpres12 hCk hkne hkx, hkidsP⟩
      obtain ⟨hpres2, hall2, hid', hval', hGood', hbound2⟩ :=
        ih r₂ id P r' h (fun c' hc' => hcs c' (List.mem_cons_of_mem _ hc'))
          hP hGood2 hid2
      obtain ⟨w, hw⟩ := Option.isSome_iff_exists.1 hsome_c
      have hw2 : dlookup r₂ c = some w := hpres12 c w hcneid hw
      have hw' : dlookup r' c = some w := hpres2 c w hcneid hw2
      refine ⟨?_, ?_, hid', ?_, hGood', ?_⟩
      · intro k v hk hv
        exact hpres2 k v hk (hpres12 k v hk (hpres1 k v hv))
      · intro c' hc'
        rcases List.mem_cons.1 hc' with rfl | hc''
        · simp [hw']
        · exact hall2 c' hc''
      · have hval2id : val r₂ id = val r id + val r₁ c := val_dinsert_self _ _ _
        have hvc : val r' c = val r₁ c := by
          unfold val
          rw [hw', hw]
        rw [List.map_cons, List.sum_cons, hval', hval2id, hvc]
        ring
      · intro k hk
        rcases hbound2 k hk with hk2 | hmem
        · rw [hr₂, dlookup_dinsert] at hk2
          by_cases hkid : id = k
          · subst hkid
            exact Or.inl hid
          · rw [if_neg hkid] at hk2
            rcases hbound1 k hk2 with hkr | hmem | rfl
            · exact Or.inl hkr
            · exact Or.inr hmem
            · exact Or.inr (kidsOf_mem_allIds hc)
        · exact Or.inr hmem

theorem getTotalCount_main (cb : Dict Id' (List Id')) (cnt : Dict Id' Int)
    (rk : Id' → Nat) (hrk : RankOk cb rk) :
    ∀ (fuel : Nat) (r : Dict Id' Int) (id : Id') (r' : Dict Id' Int)
      (P : List Id'),
      getTotalCount cb cnt fuel r id = some r' →
      (∀ p ∈ P, rk id < rk p) →
      Good cb cnt r P →
      Pres r r' ∧ (dlookup r' id).isSome = true ∧ Good cb cnt r' P ∧
      (∀ k, (dlookup r' k).isSome = true →
        (dlookup r k).isSome = true ∨ k ∈ allIds cb ∨ k = id) := by
  intro fuel
  induction fuel with
  | zero =>
    intro r id r' P h
    simp [getTotalCount] at h
  | succ f ih =>
    intro r id r' P h hP hGood
    simp only [getTotalCount] at h
    cases hl : dlookup r id with
    | some v =>
      rw [hl] at h
      simp only [Option.some.injEq] at h
      subst h
      exact ⟨fun _ _ hv => hv, by simp [hl], hGood, fun _ hk => Or.inl hk⟩
    | none =>
      rw [hl] at h
      set r0 := dinsert r id (cnt0 cnt id) with hr0
      have hpres0 : ∀ (m : Id') (v : Int), m ≠ id →
          dlookup r m = some v → dlookup r0 m = some v := by
        intro m v hm hv
        rw [hr0, dlookup_dinsert_ne _ _ _ _ (fun hEq => hm hEq.symm)]
        exact hv
      have hid0 : (dlookup r0 id).isSome = true := by
        rw [hr0, dlookup_dinsert_self]
        rfl
      have hGood0 : Good cb cnt r0 (id :: P) := by
        intro k hk hkP
        have hkne : k ≠ id := fun hEq => hkP (hEq ▸ List.mem_cons_self _ _)
        have hkr : (dlookup r k).isSome = true := by
          rw [hr0, dlookup_dinsert_ne _ _ _ _ (fun hEq => hkne hEq.symm)] at hk
          exact hk
        obtain ⟨hCk, hkidsP⟩ :=
          hGood k hkr (fun hmem => hkP (List.mem_cons_of_mem _ hmem))
        have hkx : ∀ c ∈ kidsOf cb k, c ≠ id := by
          intro c hc hEq
          have := hCk.2.1 c hc
          rw [hEq, hl] at this
          simp at this
        refine ⟨correct_mono_except hpres0 hCk hkne hkx, ?_⟩
        intro c hc hmem
        rcases List.mem_cons.1 hmem with rfl | hmem'
        · exact hkx c hc rfl
        · exact hkidsP c hc hmem'
      obtain ⟨hpresT, hallT, hidT, hvalT, hGoodT, hboundT⟩ :=
        goChildren_main cb cnt rk hrk _
          (fun r c r' P' h1 h2 h3 => ih r c r' P' h1 h2 h3)
          (kidsOf cb id) r0 id P r' h (fun _ hc => hc) hP hGood0 hid0
      refine ⟨?_, hidT, ?_, ?_⟩
      · intro k v hv
        have hkne : k ≠ id := by
          intro hEq
          rw [hEq, hl] at hv
          exact Option.noConfusion hv
        exact hpresT k v hkne (hpres0 k v hkne hv)
      · intro k hk hkP
        by_cases hkid : k = id
        · subst hkid
          have heq : val r' k = cnt0 cnt k +
              ((kidsOf cb k).map (val r')).sum := by
            have hv0 : val r0 k = cnt0 cnt k := val_dinsert_self _ _ _
            rw [hvalT, hv0]
          have hkidsnP : ∀ c ∈ kidsOf cb k, c ∉ P := by
            intro c hc hmem
            have h1 : rk c < rk k := rank_kids hrk hc
            have h2 : rk k < rk c := hP c hmem
            omega
          exact ⟨⟨hidT, hallT, heq⟩, hkidsnP⟩
        · have hknotinP : k ∉ id :: P := by
            intro hmem
            rcases List.mem_cons.1 hmem with rfl | hmem'
            · exact hkid rfl
            · exact hkP hmem'
          obtain ⟨hC, hkids⟩ := hGoodT k hk hknotinP
          exact ⟨hC, fun c hc hmem => hkids c hc (List.mem_cons_of_mem _ hmem)⟩
      · intro k hk
        rcases hboundT k hk with hk0 | hmem
        · rw [hr0, dlookup_dinsert] at hk0
          by_cases hkid : id = k
          · exact Or.inr (Or.inr hkid.symm)
          · rw [if_neg hkid] at hk0
            exact Or.inl hk0
        · exact Or.inr (Or.inl hmem)

theorem goKeys_main (cb : Dict Id' (List Id')) (cnt : Dict Id' Int)
    (rk : Id' → Nat) (hrk : RankOk cb rk) (fuel : Nat) :
    ∀ (ps : List (Id' × List Id')) (r r' : Dict Id' Int),
      goKeys cb cnt fuel r ps = some r' →
      Good cb cnt r [] →
      Good cb cnt r' [] ∧ Pres r r' ∧
      (∀ p ∈ ps, (dlookup r' p.1).isSome = true) := by
  intro ps
  induction ps with
  | nil =>
    intro r r' h hG
    simp only [goKeys, Option.some.injEq] at h
    subst h
    exact ⟨hG, fun _ _ hv => hv, by simp⟩
  | cons p ps' ih =>
    intro r r' h hG
    simp only [goKeys] at h
    cases hgt : getTotalCount cb cnt fuel r p.1 with
    | none => rw [hgt] at h; simp at h
    | some r₁ =>
      rw [hgt] at h
      obtain ⟨hpres1, hsome1, hGood1, _⟩ :=
        getTotalCount_main cb cnt rk hrk fuel r p.1 r₁ [] hgt (by simp) hG
      obtain ⟨hG', hpres2, hkeys⟩ := ih r₁ r' h hGood1
      refine ⟨hG', fun k v hv => hpres2 k v (hpres1 k v hv), ?_⟩
      intro q hq
      rcases List.mem_cons.1 hq with rfl | hq'
      · exact pres_isSome hpres2 hsome1
      · exact hkeys q hq'

/-- What `calculateAggregatedCounts` guarantees over an acyclic hierarchy:
every stored entry satisfies the recurrence, and every id the hierarchy
mentions is stored. -/
theorem calculateAggregatedCounts_spec (cb : Dict Id' (List Id'))
    (cnt : Dict Id' Int) (rk : Id' → Nat) (hrk : RankOk cb rk) :
    (∀ k, (dlookup (calculateAggregatedCounts cb cnt) k).isSome = true →
      Correct cb cnt (calculateAggregatedCounts cb cnt) k) ∧
    (∀ id ∈ hierIds cb,
      (dlookup (calculateAggregatedCounts cb cnt) id).isSome = true) := by
  have hO := calculateAggregatedCountsO_isSome cb cnt
  obtain ⟨A, hA⟩ := Option.isSome_iff_exists.1 hO
  have hAeq : calculateAggregatedCounts cb cnt = A := by
    unfold calculateAggregatedCounts
    rw [hA]
    rfl
  have hA' : goKeys cb cnt (aggFuel cb) [] cb = some A := hA
  have hGoodnil : Good cb cnt [] [] := by
    intro k hk
    simp [dlookup] at hk
  obtain ⟨hG, _, hkeys⟩ := goKeys_main cb cnt rk hrk (aggFuel cb) cb [] A hA' hGoodnil
  rw [hAeq]
  constructor
  · intro k hk
    exact (hG k hk (by simp)).1
  · intro id hid
    unfold hierIds at hid
    rcases List.mem_append.1 hid with hk | hc
    · obtain ⟨p, hp, hpe⟩ := List.mem_map.1 hk
      rw [← hpe]
      exact hkeys p hp
    · obtain ⟨k, hkmem, hkin⟩ := List.mem_flatMap.1 hc
      obtain ⟨p, hp, hpe⟩ := List.mem_map.1 hkmem
      have hks : (dlookup A k).isSome = true := by
        rw [← hpe]
        exact hkeys p hp
      have hC := (hG k hks (by simp)).1
      exact hC.2.1 id hkin

/-! ## Claims C1, C10, C3 -/

/-- C1: for every `TypesFrequency` built over an acyclic parent hierarchy,
the aggregated count of an id the hierarchy mentions equals its own raw
count (0 if absent) plus the sum of the aggregated counts of its direct
children; in particular on the chain with counts {1 ↦ 1, 2 ↦ 2 (child of
1), 3 ↦ 3 (child of 2)} the aggregated counts are 6, 5 and 3. -/
theorem aggregatedCount_recurrence :
    (∀ (lt : List LocalizedType) (idx : Dict Id' Nat)
      (cb : Dict Id' (List Id')) (cnt : Dict Id' Int) (rk : Id' → Nat),
      RankOk cb rk → ∀ id ∈ hierIds cb,
        (mkTypesFrequency lt idx cb cnt).getAggregatedCount id =
          (mkTypesFrequency lt idx cb cnt).getCount id +
            ((kidsOf cb id).map
              (mkTypesFrequency lt idx cb cnt).getAggregatedCount).sum) ∧
    ((mkTypesFrequency [] [] [(1, [2]), (2, [3])]
        [(1, 1), (2, 2), (3, 3)]).getAggregatedCount 1 = 6 ∧
      (mkTypesFrequency [] [] [(1, [2]), (2, [3])]
        [(1, 1), (2, 2), (3, 3)]).getAggregatedCount 2 = 5 ∧
      (mkTypesFrequency [] [] [(1, [2]), (2, [3])]
        [(1, 1), (2, 2), (3, 3)]).getAggregatedCount 3 = 3) := by
  constructor
  · intro lt idx cb cnt rk hrk id hid
    obtain ⟨hC, hkeys⟩ := calculateAggregatedCounts_spec cb cnt rk hrk
    have hsome := hkeys id hid
    obtain ⟨_, _, heq⟩ := hC id hsome
    show jsOr0 (dlookup (calculateAggregatedCounts cb cnt) id) =
      jsOr0 (dlookup cnt id) + _
    rw [jsOr0_eq_getD, jsOr0_eq_getD]
    have hmc : (kidsOf cb id).map
          (mkTypesFrequency lt idx cb cnt).getAggregatedCount =
        (kidsOf cb id).map (val (calculateAggregatedCounts cb cnt)) := by
      apply List.map_congr_left
      intro c _
      show jsOr0 _ = _
      rw [jsOr0_eq_getD]
      rfl
    rw [hmc]
    exact heq
  · exact ⟨by decide, by decide, by decide⟩

/-- The aggregated map holds no negative value when the raw counts are all
nonnegative and the hierarchy is acyclic. -/
theorem aggregated_nonneg (cb : Dict Id' (List Id')) (cnt : Dict Id' Int)
    (hcnt : ∀ p ∈ cnt, 0 ≤ p.2) (rk : Id' → Nat) (hrk : RankOk cb rk) :
    ∀ id, 0 ≤ val (calculateAggregatedCounts cb cnt) id := by
  obtain ⟨hC, _⟩ := calculateAggregatedCounts_spec cb cnt rk hrk
  have hcnt0 : ∀ id, 0 ≤ cnt0 cnt id := by
    intro id
    unfold cnt0
    cases hl : dlookup cnt id with
    | none => simp
    | some v => simpa using hcnt _ (dlookup_mem hl)
  have main : ∀ (n : Nat) (id : Id'), rk id < n →
      (dlookup (calculateAggregatedCounts cb cnt) id).isSome = true →
      0 ≤ val (calculateAggregatedCounts cb cnt) id := by
    intro n
    induction n with
    | zero => intro id h; omega
    | succ m ih =>
      intro id hlt hsome
      obtain ⟨_, hck, heq⟩ := hC id hsome
      rw [heq]
      have hsum : 0 ≤
          ((kidsOf cb id).map (val (calculateAggregatedCounts cb cnt))).sum := by
        apply List.sum_nonneg
        intro x hx
        obtain ⟨c, hc, rfl⟩ := List.mem_map.1 hx
        have h1 : rk c < rk id := rank_kids hrk hc
        exact ih c (by omega) (hck c hc)
      have := hcnt0 id
      omega
  intro id
  cases hsome : (dlookup (calculateAggregatedCounts cb cnt) id).isSome with
  | false =>
    unfold val
    cases hl : dlookup (calculateAggregatedCounts cb cnt) id with
    | none => simp
    | some v =>
      rw [hl] at hsome
      simp at hsome
  | true => exact main (rk id + 1) id (by omega) hsome

/-- C10 (amended): with nonnegative raw counts over an acyclic hierarchy,
every id the hierarchy mentions (every `childrenById` key and every listed
child — in particular every parent id, including 0 and dangling ones)
satisfies `getCount id ≤ getAggregatedCount id` and `0 ≤ getCount id`; and
for any id whatsoever both accessors return a nonnegative number. (An id
outside the hierarchy with a positive raw count has aggregated count 0,
which is why `getCount ≤ getAggregatedCount` needs the restriction.) -/
theorem counts_nonneg_invariant (lt : List LocalizedType)
    (idx : Dict Id' Nat) (cb : Dict Id' (List Id')) (cnt : Dict Id' Int)
    (rk : Id' → Nat) (hcnt : ∀ p ∈ cnt, 0 ≤ p.2) (hrk : RankOk cb rk) :
    (∀ id ∈ hierIds cb,
      0 ≤ (mkTypesFrequency lt idx cb cnt).getCount id ∧
      (mkTypesFrequency lt idx cb cnt).getCount id ≤
        (mkTypesFrequency lt idx cb cnt).getAggregatedCount id) ∧
    (∀ id, 0 ≤ (mkTypesFrequency lt idx cb cnt).getCount id ∧
      0 ≤ (mkTypesFrequency lt idx cb cnt).getAggregatedCount id) := by
  have hcnt0 : ∀ id, 0 ≤ cnt0 cnt id := by
    intro id
    unfold cnt0
    cases hl : dlookup cnt id with
    | none => simp
    | some v => simpa using hcnt _ (dlookup_mem hl)
  have hcount : ∀ id, (mkTypesFrequency lt idx cb cnt).getCount id =
      cnt0 cnt id := by
    intro id
    show jsOr0 (dlookup cnt id) = _
    rw [jsOr0_eq_getD]
    rfl
  have hagg : ∀ id, (mkTypesFrequency lt idx cb cnt).getAggregatedCount id =
      val (calculateAggregatedCounts cb cnt) id := by
    intro id
    show jsOr0 (dlookup (calculateAggregatedCounts cb cnt) id) = _
    rw [jsOr0_eq_getD]
    rfl
  constructor
  · intro id hid
    obtain ⟨hC, hkeys⟩ := calculateAggregatedCounts_spec cb cnt rk hrk
    obtain ⟨_, hck, heq⟩ := hC id (hkeys id hid)
    refine ⟨by rw [hcount]; exact hcnt0 id, ?_⟩
    rw [hcount, hagg, heq]
    have hsum : 0 ≤
        ((kidsOf cb id).map (val (calculateAggregatedCounts cb cnt))).sum := by
      apply List.sum_nonneg
      intro x hx
      obtain ⟨c, _, rfl⟩ := List.mem_map.1 hx
      exact aggregated_nonneg cb cnt hcnt rk hrk c
    omega
  · intro id
    refine ⟨by rw [hcount]; exact hcnt0 id, ?_⟩
    rw [hagg]
    exact aggregated_nonneg cb cnt hcnt rk hrk id

/-- Witness for C10's amended statement at a one-record hierarchy. -/
theorem counts_nonneg_invariant_witness :
    (∀ id ∈ hierIds [((0 : Id'), [(1 : Id')])],
      0 ≤ (mkTypesFrequency [] [] [((0 : Id'), [(1 : Id')])]
          [((1 : Id'), (1 : Int))]).getCount id ∧
      (mkTypesFrequency [] [] [((0 : Id'), [(1 : Id')])]
          [((1 : Id'), (1 : Int))]).getCount id ≤
        (mkTypesFrequency [] [] [((0 : Id'), [(1 : Id')])]
          [((1 : Id'), (1 : Int))]).getAggregatedCount id) ∧
    (∀ id, 0 ≤ (mkTypesFrequency [] [] [((0 : Id'), [(1 : Id')])]
          [((1 : Id'), (1 : Int))]).getCount id ∧
      0 ≤ (mkTypesFrequency [] [] [((0 : Id'), [(1 : Id')])]
          [((1 : Id'), (1 : Int))]).getAggregatedCount id) :=
  counts_nonneg_invariant [] [] [((0 : Id'), [(1 : Id')])]
    [((1 : Id'), (1 : Int))] (fun i => if i = 0 then 1 else 0)
    (by decide) (by unfold RankOk; decide)

/-- C10 counterexample: a `TypesFrequency` with nonnegative counts over an
acyclic one-record hierarchy, and an id (42) outside the hierarchy whose
raw count is 5 but whose aggregated count is 0 — so
`getAggregatedCount id ≥ getCount id` fails for "any id whatsoever". -/
theorem counts_nonneg_cex :
    (∀ p ∈ [((1 : Id'), (1 : Int)), (42, 5)], 0 ≤ p.2) ∧
    RankOk (createTypesAccess
        [{ id := 1, parentId := 0, scientificName := "", commonName := "",
           taxonomicRank := 0, urls := [] }]).childrenById
      (fun i => if i = 0 then 1 else 0) ∧
    (createTypesFrequency (createTypesAccess
        [{ id := 1, parentId := 0, scientificName := "", commonName := "",
           taxonomicRank := 0, urls := [] }])
        [(1, 1), (42, 5)]).getCount 42 = 5 ∧
    (createTypesFrequency (createTypesAccess
        [{ id := 1, parentId := 0, scientificName := "", commonName := "",
           taxonomicRank := 0, urls := [] }])
        [(1, 1), (42, 5)]).getAggregatedCount 42 = 0 :=
  ⟨by decide, by unfold RankOk; decide, by decide, by decide⟩

/-- C3 (amended): `dropZeroCounts` keeps exactly the records whose
aggregated count, evaluated on the receiver, is greater than zero, in their
original relative order; the removed records are those whose aggregated
count is not greater than zero, which is exactly "aggregated count 0"
whenever the raw counts are nonnegative and the hierarchy acyclic (it can
differ when raw counts are negative — see the counterexample); in
particular on a built instance with counts {1 ↦ 1} over records 1 and 2 the
record with id 2 (aggregated count 0) is removed and record 1 is kept. -/
theorem dropZeroCounts_spec :
    (∀ f : TypesFrequency,
      (f.dropZeroCounts).localizedTypes =
        f.localizedTypes.filter (fun t => f.getAggregatedCount t.id > 0)) ∧
    (∀ (lt : List LocalizedType) (cnt : Dict Id' Int) (rk : Id' → Nat),
      RankOk (buildChildrenById lt) rk → (∀ p ∈ cnt, 0 ≤ p.2) →
      ∀ t ∈ lt,
        ¬ ((createTypesFrequency (createTypesAccess lt)
            cnt).getAggregatedCount t.id > 0) →
        (createTypesFrequency (createTypesAccess lt)
          cnt).getAggregatedCount t.id = 0) ∧
    ((createTypesFrequency (createTypesAccess
        [{ id := 1, parentId := 0, scientificName := "", commonName := "",
           taxonomicRank := 0, urls := [] },
         { id := 2, parentId := 0, scientificName := "", commonName := "",
           taxonomicRank := 0, urls := [] }])
        [(1, 1)]).dropZeroCounts).localizedTypes =
      [{ id := 1, parentId := 0, scientificName := "", commonName := "",
         taxonomicRank := 0, urls := [] }] := by
  refine ⟨fun _ => rfl, ?_, by decide⟩
  intro lt cnt rk hrk hcnt t _ hnot
  have hagg : (createTypesFrequency (createTypesAccess lt)
      cnt).getAggregatedCount t.id =
      val (calculateAggregatedCounts (buildChildrenById lt) cnt) t.id := by
    show jsOr0 _ = _
    rw [jsOr0_eq_getD]
    rfl
  rw [hagg] at hnot ⊢
  have := aggregated_nonneg (buildChildrenById lt) cnt hcnt rk hrk t.id
  omega

/-- C3 counterexample: with a (negative) raw count of -1 the single record
has aggregated count -1, not 0, yet `dropZeroCounts` removes it — the
removed set is "aggregated count ≤ 0", not "aggregated count = 0". -/
theorem dropZeroCounts_cex :
    (createTypesFrequency (createTypesAccess
        [{ id := 1, parentId := 0, scientificName := "", commonName := "",
           taxonomicRank := 0, urls := [] }])
        [(1, -1)]).getAggregatedCount 1 = -1 ∧
    ((createTypesFrequency (createTypesAccess
        [{ id := 1, parentId := 0, scientificName := "", commonName := "",
           taxonomicRank := 0, urls := [] }])
        [(1, -1)]).dropZeroCounts).localizedTypes = [] :=
  ⟨by decide, by decide⟩

/-! ## Claim C6: the synthetic Pending-Review record -/

/-- The shape C6 names for the synthetic record: id `PENDING_ID` (-1),
parent 0, rank 0, common name "Pending Review". -/
def isPendingShape (t : LocalizedType) : Bool :=
  t.id = PENDING_ID ∧ t.parentId = 0 ∧ t.taxonomicRank = 0 ∧
    t.commonName = "Pending Review"

theorem localize_id (t : SchemaType) (language : String) :
    (localize t language).id = t.id := rfl

/-- C6 (amended): provided no raw input record already carries the reserved
id `PENDING_ID` (-1), the factory's output contains exactly one record of
the Pending-Review shape iff some input record is pending, and zero such
records otherwise. (Without that proviso a non-pending input with id -1 and
common name "Pending Review" is indistinguishable from the synthetic
record — see the counterexample.) -/
theorem typesAccessInLanguage_pending (types : List SchemaType)
    (language : String) (hids : ∀ t ∈ types, t.id ≠ PENDING_ID) :
    ((typesAccessInLanguage types language).localizedTypes.countP
        isPendingShape) =
      if types.any (fun t => t.pending) then 1 else 0 := by
  have hperm : (typesAccessInLanguage types language).localizedTypes.countP
      isPendingShape =
      (if types.any (fun t => t.pending) then
        types.map (fun t => localize t language) ++ [pendingRecord]
      else types.map (fun t => localize t language)).countP isPendingShape := by
    show (toDisplayOrder _).countP isPendingShape = _
    exact List.Perm.countP_eq _ (List.perm_insertionSort displayLe _)
  rw [hperm]
  have hmap : (types.map (fun t => localize t language)).countP
      isPendingShape = 0 := by
    rw [List.countP_eq_zero]
    intro a ha
    obtain ⟨t, ht, rfl⟩ := List.mem_map.1 ha
    unfold isPendingShape
    simp only [Bool.not_eq_true, decide_eq_false_iff_not]
    intro hcontra
    exact hids t ht (hcontra.1)
  by_cases hany : types.any (fun t => t.pending)
  · rw [if_pos hany, if_pos hany, List.countP_append, hmap]
    decide
  · rw [if_neg hany, if_neg hany]
    exact hmap

/-- Witness for C6's amended statement: one pending input record. -/
theorem typesAccessInLanguage_pending_witness :
    ((typesAccessInLanguage
        [{ id := 5, parent_id := none, pending := true,
           scientific_names := none,
           common_names := some [("en", ["Zebra"])],
           taxonomic_rank := none, urls := none }]
        "en").localizedTypes.countP isPendingShape) =
      if ([{ id := 5, parent_id := none, pending := true,
             scientific_names := none,
             common_names := some [("en", ["Zebra"])],
             taxonomic_rank := none,
             urls := none }] : List SchemaType).any (fun t => t.pending)
      then 1 else 0 :=
  typesAccessInLanguage_pending _ "en" (by decide)

/-- C6 counterexample: a non-pending raw record with id -1 whose English
common name is "Pending Review" localizes to the exact synthetic shape, so
together with one genuinely pending record the output holds two
Pending-Review records although "exactly one iff some record is pending"
demands one. -/
theorem typesAccessInLanguage_pending_cex :
    ([{ id := -1, parent_id := none, pending := false,
        scientific_names := none,
        common_names := some [("en", ["Pending Review"])],
        taxonomic_rank := none, urls := none },
      { id := 5, parent_id := none, pending := true,
        scientific_names := none,
        common_names := some [("en", ["Zebra"])],
        taxonomic_rank := none, urls := none }] : List SchemaType).any
        (fun t => t.pending) = true ∧
    ((typesAccessInLanguage
        [{ id := -1, parent_id := none, pending := false,
           scientific_names := none,
           common_names := some [("en", ["Pending Review"])],
           taxonomic_rank := none, urls := none },
         { id := 5, parent_id := none, pending := true,
           scientific_names := none,
           common_names := some [("en", ["Zebra"])],
           taxonomic_rank := none, urls := none }]
        "en").localizedTypes.countP isPendingShape) = 2 := by
  refine ⟨by decide, ?_⟩
  show (toDisplayOrder _).countP isPendingShape = 2
  unfold toDisplayOrder
  rw [List.Perm.countP_eq _ (List.perm_insertionSort displayLe _)]
  decide
